import Mathlib

/-!
# Verification of rpm-lockfile-prototype core behaviours

Shallow embedding of the core logic of the `rpm_lockfile` package:

* `RpmLockfile.ArchFilter` — the `_arch_matches` architecture filter
  (`rpm_lockfile/__init__.py`).
* `RpmLockfile.Subst` — the `subst_vars` template engine
  (`rpm_lockfile/utils.py`).
* `RpmLockfile.ImageSpec` — the `check_image_spec` registry heuristic
  (`rpm_lockfile/utils.py`).
* `RpmLockfile.Cache` — the rpmdb cache (`setup_rpmdb`, `_maybe_cleanup` in
  `rpm_lockfile/containers.py`), both a sequential model and a concurrent
  interleaving model.
* `RpmLockfile.Containerfile` — `extract_image` (`rpm_lockfile/utils.py`).
* `RpmLockfile.Orchestrator` — the per-architecture fan-out/collect loop in
  `main` (`rpm_lockfile/__init__.py`).

Strings manipulated character by character are modelled as `List Char`;
Python dictionaries are modelled as association lists.
-/

namespace RpmLockfile

/-! # PART 1 — Definitions (embedding of the source) -/

/-! ## Architecture filter (`_arch_matches`) -/

namespace ArchFilter

/-- A YAML value for the `only`/`not` fields: either a plain string or a list
of strings (the code accepts both shapes). -/
inductive StrOrList where
  | str (s : String)
  | list (l : List String)
deriving DecidableEq, Repr

/-- An architecture filter specification: the `only` and `not` keys of the
mapping, each possibly absent. -/
structure ArchSpec where
  only : Option StrOrList := none
  not : Option StrOrList := none
deriving DecidableEq, Repr

/-- `spec.get("only", [])` followed by the `isinstance(only, str)` wrapping:
an absent key yields `[]`, a plain string is wrapped into a one-element
list, a list is kept as is. -/
def normalize : Option StrOrList → List String
  | none => []
  | some (.str s) => [s]
  | some (.list l) => l

/-- `_arch_matches(spec, arch)` from `rpm_lockfile/__init__.py`:
`(not only or arch in only) and (not not_ or arch not in not_)`. -/
def archMatches (spec : ArchSpec) (arch : String) : Bool :=
  let only := normalize spec.only
  let not_ := normalize spec.not
  (only.isEmpty || only.contains arch) && (not_.isEmpty || !(not_.contains arch))

end ArchFilter

/-! ## `subst_vars` template engine -/

namespace Subst

/-- Python's `template.replace(pattern, repl)` (leftmost, non-overlapping,
replacement text is not re-scanned), written with an explicit skip counter so
that the recursion is structural.  While `skip > 0` the scanner is still
consuming characters of a previously matched pattern occurrence. -/
def replaceGo (p r : List Char) : List Char → Nat → List Char
  | [], _ => []
  | _c :: t, skip + 1 => replaceGo p r t skip
  | c :: t, 0 =>
    if p.isPrefixOf (c :: t) then
      r ++ replaceGo p r t (p.length - 1)
    else
      c :: replaceGo p r t 0

/-- `template.replace(p, r)`.  The `p = []` case never arises from
`subst_vars` (patterns are `{key}`), and is mapped to the identity. -/
def replaceAll (p r s : List Char) : List Char :=
  if p.isEmpty then s else replaceGo p r s 0

/-- The placeholder pattern `f"{{{key}}}"`, i.e. `{key}`. -/
def pat (k : List Char) : List Char := '{' :: (k ++ ['}'])

/-- `subst_vars(template, vars)` from `rpm_lockfile/utils.py`: one
`str.replace` per dictionary entry, in iteration (insertion) order. -/
def substVars (template : List Char) (vars : List (List Char × List Char)) :
    List Char :=
  vars.foldl (fun t kv => replaceAll (pat kv.1) kv.2 t) template

/-- A string containing neither `{` nor `}`. -/
def braceFree (l : List Char) : Prop := ∀ c ∈ l, c ≠ '{' ∧ c ≠ '}'

instance (l : List Char) : Decidable (braceFree l) := by
  unfold braceFree; infer_instance

inductive Seg where
  | lit (s : List Char)
  | hole (k : List Char)
deriving DecidableEq, Repr

/-- The raw text of one segment. -/
def renderSeg : Seg → List Char
  | .lit s => s
  | .hole k => pat k

/-- The raw text of a segment list. -/
def render : List Seg → List Char
  | [] => []
  | s :: t => renderSeg s ++ render t

/-- Well-formed segment: literal text and key are brace-free (so placeholders
in the rendered text are exactly the `hole` segments). -/
def segWF : Seg → Prop
  | .lit s => braceFree s
  | .hole k => braceFree k

instance : DecidablePred segWF := fun s => by
  cases s <;> · unfold segWF braceFree; infer_instance

/-- Effect of one `str.replace` call on one segment. -/
def applySeg (k v : List Char) : Seg → Seg
  | .hole k' => if k' = k then .lit v else .hole k'
  | .lit s => .lit s

/-- Effect of the whole `subst_vars` loop on one segment. -/
def applyAll (vars : List (List Char × List Char)) (sg : Seg) : Seg :=
  vars.foldl (fun sg kv => applySeg kv.1 kv.2 sg) sg

/-- First binding of a key in the dictionary (association list). -/
def assocFind (k : List Char) : List (List Char × List Char) → Option (List Char)
  | [] => none
  | kv :: rest => if kv.1 = k then some kv.2 else assocFind k rest

/-- The intended meaning of one segment after substitution: a `{k}` hole with
`k` bound in the dictionary becomes its value, any other hole stays verbatim. -/
def substSegSpec (vars : List (List Char × List Char)) : Seg → Seg
  | .lit s => .lit s
  | .hole k =>
    match assocFind k vars with
    | some v => Seg.lit v
    | none => Seg.hole k

end Subst

/-! ## `check_image_spec` (registry heuristic) -/

namespace ImageSpec

/-- All decompositions `s = a ++ b`. -/
def splits : List Char → List (List Char × List Char)
  | [] => [([], [])]
  | c :: t => ([], c :: t) :: (splits t).map (fun ab => (c :: ab.1, ab.2))

/-- One or more characters, none of which is a newline: the language of the
regex atom `.+` (Python `re` without `DOTALL`). -/
def plusNonNL (l : List Char) : Bool := !l.isEmpty && l.all (· ≠ '\n')

/-- `check_image_spec(image_spec)` from `rpm_lockfile/utils.py`:
`bool(re.match(r'.+\..+/.+', image_spec))`.  `re.match` anchors at the start
only, so the regex semantics is: some prefix of the string decomposes as
`.+` `.` `.+` `/` `.+`. -/
def check_image_spec (s : List Char) : Bool :=
  (splits s).any fun ar =>
    plusNonNL ar.1 &&
      (match ar.2 with
        | '.' :: r2 =>
          (splits r2).any fun br =>
            plusNonNL br.1 &&
              (match br.2 with
                | '/' :: r4 => (splits r4).any fun cr => plusNonNL cr.1
                | _ => false)
        | _ => false)

/-- The behaviour claimed by the spec sentence: true iff the string contains
a `/` and the path component preceding the *first* `/` contains a `.`. -/
def firstComponentDotSpec (s : List Char) : Bool :=
  s.contains '/' && (s.takeWhile (· ≠ '/')).contains '.'

end ImageSpec

/-! ## rpmdb cache (`setup_rpmdb`, `_maybe_cleanup`) -/

namespace Cache

/-- The content of a directory, as relative file paths with file contents. -/
abbrev Dir := List (String × String)

/-- `USAGE_THRESHOLD` from `rpm_lockfile/containers.py`. -/
def USAGE_THRESHOLD : Nat := 80

/-- `_maybe_cleanup(directory)`: `_get_storage_usage` returns `None` on `df`
failure (then nothing happens); otherwise the directory is removed when
`usage and usage >= USAGE_THRESHOLD` (Python truthiness: `usage` must also be
non-zero). -/
def maybeCleanup (usage : Option Nat) (cache : Option Dir) : Option Dir :=
  match usage with
  | none => cache
  | some u => if u ≠ 0 ∧ USAGE_THRESHOLD ≤ u then none else cache

/-! ### Sequential model

One `setup_rpmdb(dest_dir, baseimage, arch)` call with no concurrent writer,
as a pure function of the cache state.  `content` is the rpmdb content that
`_online_setup_rpmdb` extracts for the image digest (the empty list when the
image populates no known rpmdb path — the top destination directory is
created by `mkdir` regardless, precisely so that empty data is cached). -/

/-- Cache state seen by a sequential call: the final per-digest cache path
`<cache>/rpmdbs/<arch>/<digest>`, absent or with its content. -/
structure SeqFS where
  cache : Option Dir
deriving DecidableEq, Repr

/-- Outcome of one sequential `setup_rpmdb` call. -/
structure SeqResult where
  fs : SeqFS
  dest : Dir
  downloaded : Bool
deriving DecidableEq, Repr

/-- One sequential `setup_rpmdb` call: if the cache path exists it is a hit
(no download); otherwise `_online_setup_rpmdb` populates a temporary sibling
(one download) which is atomically renamed onto the cache path (no
concurrent writer, so the rename succeeds).  Either way the cache content is
then copied into the caller's destination directory, and `_maybe_cleanup`
runs against the cache entry. -/
def setup_rpmdb_seq (fs : SeqFS) (content : Dir) (usage : Option Nat) :
    SeqResult :=
  match fs.cache with
  | some d =>
    { fs := { cache := maybeCleanup usage (some d) }, dest := d,
      downloaded := false }
  | none =>
    { fs := { cache := maybeCleanup usage (some content) }, dest := content,
      downloaded := true }

/-- `k` further sequential `setup_rpmdb` calls for the same (arch, digest),
each returning its own result. -/
def runCalls (content : Dir) (usage : Option Nat) : Nat → SeqFS → List SeqResult
  | 0, _ => []
  | k + 1, fs =>
    let r := setup_rpmdb_seq fs content usage
    r :: runCalls content usage k r.fs

/-! ### Concurrent model

`N` concurrent `setup_rpmdb` calls for the same (arch, digest), from distinct
processes (so with distinct `tmp_cache = cache.with_suffix(f".{os.getpid()}")`
paths).  Each caller's temporary and destination directories are private to
it, so populating them is one atomic step each; the shared final cache path
is touched only by the existence check, the atomic rename, the copy and the
cleanup, which are the interleaving points. -/

/-- Program counter of one `setup_rpmdb` call. -/
inductive PC where
  | check | populate | rename | copy | cleanup | done | error
deriving DecidableEq, Repr

/-- Pointwise update of a function out of `Fin n`. -/
def upd {n : Nat} {α : Type} (f : Fin n → α) (i : Fin n) (x : α) : Fin n → α :=
  fun j => if j = i then x else f j

/-- Global state of `n` concurrent `setup_rpmdb` calls: the shared final
cache path, and per caller its temporary directory, destination directory,
program counter, whether it downloaded the image, and whether its rename
failed (lost the race). -/
structure CState (n : Nat) where
  cache : Option Dir
  tmp : Fin n → Option Dir
  dest : Fin n → Option Dir
  pc : Fin n → PC
  downloaded : Fin n → Bool
  failedRename : Fin n → Bool

/-- Fixed context of a run: the rpmdb content extracted from the image
digest (identical for every caller, same digest), and whether `df` reports
disk usage at or above `USAGE_THRESHOLD`. -/
structure Config where
  content : Dir
  diskFull : Bool

/-- One atomic step of caller `i`, following `setup_rpmdb`:

* `check`: `if not cache.exists()` — hit goes straight to the copy;
* `populate`: `_online_setup_rpmdb(tmp_cache, image, arch)` — downloads the
  image and extracts the rpmdb into the caller-private temporary directory;
* `rename`: `tmp_cache.rename(cache)` — atomic; succeeds when the target is
  absent (or an existing *empty* directory, which `os.rename` replaces);
  when the target exists non-empty it raises `OSError`, swallowed by
  `except OSError: pass`, which leaves the temporary directory in place;
* `copy`: `shutil.copytree(cache, dest_dir, dirs_exist_ok=True)` — raises if
  the cache path is missing (modelled as the `error` state);
* `cleanup`: `_maybe_cleanup(cache)` — deletes the cache entry iff the disk
  is full and the entry still exists. -/
def step {n : Nat} (cfg : Config) (s : CState n) (i : Fin n) : CState n :=
  match s.pc i with
  | .check =>
    if s.cache = none then { s with pc := upd s.pc i .populate }
    else { s with pc := upd s.pc i .copy }
  | .populate =>
    { s with tmp := upd s.tmp i (some cfg.content),
             downloaded := upd s.downloaded i true,
             pc := upd s.pc i .rename }
  | .rename =>
    match s.cache with
    | none =>
      { s with cache := s.tmp i, tmp := upd s.tmp i none,
               pc := upd s.pc i .copy }
    | some d =>
      if d.isEmpty then
        { s with cache := s.tmp i, tmp := upd s.tmp i none,
                 pc := upd s.pc i .copy }
      else
        { s with failedRename := upd s.failedRename i true,
                 pc := upd s.pc i .copy }
  | .copy =>
    match s.cache with
    | some d =>
      { s with dest := upd s.dest i (some d), pc := upd s.pc i .cleanup }
    | none => { s with pc := upd s.pc i .error }
  | .cleanup =>
    if cfg.diskFull ∧ s.cache ≠ none then
      { s with cache := none, pc := upd s.pc i .done }
    else { s with pc := upd s.pc i .done }
  | .done => s
  | .error => s

/-- Initial state: no pre-existing cache entry, nothing populated. -/
def init (n : Nat) : CState n :=
  { cache := none, tmp := fun _ => none, dest := fun _ => none,
    pc := fun _ => .check, downloaded := fun _ => false,
    failedRename := fun _ => false }

/-- Run a schedule (an arbitrary interleaving of the callers' steps). -/
def run {n : Nat} (cfg : Config) (s : CState n) : List (Fin n) → CState n
  | [] => s
  | i :: rest => run cfg (step cfg s i) rest

/-- Invariant of the concurrent cache protocol, for runs in which the disk
stays below the eviction threshold (`cfg.diskFull = false`):

* the final cache path is either absent or holds the complete extracted
  content — never a partial entry (atomicity of the rename);
* a caller about to rename has its temporary directory fully populated;
* a caller at the copy or cleanup stage sees the complete cache entry;
* a caller at or past cleanup has its destination fully populated;
* no caller ever errors;
* either the cache entry is installed, or some caller still has its
  populate/rename work ahead of it;
* a caller that lost the rename race still has its temporary directory fully
  populated (the `except OSError: pass` branch leaves it in place) and has
  moved on to the copy stage or beyond. -/
structure Inv (cfg : Config) {n : Nat} (s : CState n) : Prop where
  cacheOK : s.cache = none ∨ s.cache = some cfg.content
  tmpAtRename : ∀ i, s.pc i = .rename → s.tmp i = some cfg.content
  cacheAtCopy : ∀ i, s.pc i = .copy ∨ s.pc i = .cleanup →
    s.cache = some cfg.content
  destDone : ∀ i, s.pc i = .cleanup ∨ s.pc i = .done →
    s.dest i = some cfg.content
  noError : ∀ i, s.pc i ≠ .error
  progress : s.cache = some cfg.content
    ∨ ∃ i, s.pc i = .check ∨ s.pc i = .populate ∨ s.pc i = .rename
  failedOK : ∀ i, s.failedRename i = true →
    s.tmp i = some cfg.content
      ∧ (s.pc i = .copy ∨ s.pc i = .cleanup ∨ s.pc i = .done)

end Cache

/-! ## `extract_image` (Containerfile base-image scan) -/

namespace Containerfile

/-- Python's `\w` (ASCII fragment): letters, digits, underscore. -/
def isWordChar (c : Char) : Bool := c.isAlphanum || c = '_'

/-- A build-arg dictionary.  A binding's value is `none` when the ARG was
declared without a default (`arg_value = None`).  More recent bindings are
prepended, and `argLookup` takes the first hit, so later declarations
overwrite earlier ones exactly as Python dict assignment does. -/
abbrev ArgMap := List (String × Option String)

/-- `args.get(var_name)`: `none` when the name is absent, `some none` when it
is bound with no default — `expand_vars` raises in both cases. -/
def argLookup (args : ArgMap) (name : List Char) : Option (Option String) :=
  (args.find? (fun kv => kv.1.data == name)).map (·.2)

/-- Processing one `ARG` line's declarations in `finditer` order
(`global_args[arg_name] = arg_value` / `stage_args[arg_name] = arg_value`). -/
def bindArgs (m : ArgMap) (decls : List (String × Option String)) : ArgMap :=
  decls.foldl (fun m kv => kv :: m) m

/-- The error raised by `expand_vars` for an unresolvable reference. -/
def undefinedArg (name : List Char) : String :=
  "ARG '" ++ String.mk name ++ "' is used but has no default value"

/-- First pass of `expand_vars`: `re.sub(r'\$\{(\w+)\}', replace_braced,
text)`, left-to-right, no re-scan of the replacement.  `skip > 0` means the
scanner is still consuming characters of a matched `${name}` occurrence. -/
def expandBracedGo (args : ArgMap) : List Char → Nat → Except String (List Char)
  | [], _ => .ok []
  | _ :: t, skip + 1 => expandBracedGo args t skip
  | c :: t, 0 =>
    if c = '$' ∧ t.head? = some '{' ∧ t.tail.takeWhile isWordChar ≠ []
        ∧ (t.tail.drop (t.tail.takeWhile isWordChar).length).head? = some '}'
    then
      match argLookup args (t.tail.takeWhile isWordChar) with
      | some (some v) =>
        (expandBracedGo args t ((t.tail.takeWhile isWordChar).length + 2)).map
          (fun out => v.data ++ out)
      | _ => .error (undefinedArg (t.tail.takeWhile isWordChar))
    else
      (expandBracedGo args t 0).map (fun out => c :: out)

/-- Second pass of `expand_vars`: `re.sub(r'\$(\w+)', replace_unbraced,
text)`, run on the result of the first pass. -/
def expandUnbracedGo (args : ArgMap) :
    List Char → Nat → Except String (List Char)
  | [], _ => .ok []
  | _ :: t, skip + 1 => expandUnbracedGo args t skip
  | c :: t, 0 =>
    if c = '$' ∧ t.takeWhile isWordChar ≠ [] then
      match argLookup args (t.takeWhile isWordChar) with
      | some (some v) =>
        (expandUnbracedGo args t (t.takeWhile isWordChar).length).map
          (fun out => v.data ++ out)
      | _ => .error (undefinedArg (t.takeWhile isWordChar))
    else
      (expandUnbracedGo args t 0).map (fun out => c :: out)

/-- `expand_vars(text, args)`: the `${VAR}` pass, then the `$VAR` pass on its
output; raises (models as `.error`) at the first reference whose name is
unbound or bound without a default. -/
def expandVars (args : ArgMap) (text : List Char) : Except String (List Char) :=
  match expandBracedGo args text 0 with
  | .error e => .error e
  | .ok t1 => expandUnbracedGo args t1 0

/-- One line of the Containerfile, as classified by `from_line_re` /
`arg_line_re` (case-insensitive, whitespace-trimmed): a stage-introducing
`FROM [--platform=X] <img> [AS <alias>]` line (`--platform` is captured and
dropped), an `ARG` line with its declarations in `finditer` order (quotes
already stripped, `none` for a declaration with no `=VALUE`), or any other
line (ignored by the scan). -/
inductive Line where
  | fromLine (img : String) (aliasName : Option String)
  | argLine (decls : List (String × Option String))
  | other
deriving DecidableEq, Repr

/-- Python's `str.lower()` (ASCII fragment), used for the stage-alias map. -/
def lowerStr (s : String) : String := String.mk (s.data.map Char.toLower)

/-- `stage_bases[expanded_img.lower()]` lookup. -/
def stageLookup (bases : List (String × String)) (k : String) : Option String :=
  (bases.find? (fun kv => kv.1 == k)).map (·.2)

/-- The loop state of `extract_image`. -/
structure PState where
  baseimg : String
  stages : Nat
  global_args : ArgMap
  stage_args : ArgMap
  in_stage : Bool
  stage_bases : List (String × String)

/-- `if stage_name and stage_name == stage_name_value` (Python truthiness:
an empty `stage_name` is falsy; comparison against a missing alias is
`False`). -/
def stageNameHit (stage_name : Option String) (aliasName : Option String) : Bool :=
  match stage_name, aliasName with
  | some sn, some a => !(sn == "") && (sn == a)
  | _, _ => false

/-- `if stage_num == stages` (no truthiness check here: `None == int` and
`0 == stages` are simply `False` for `stages ≥ 1`). -/
def stageNumHit (stage_num : Option Nat) (stages : Nat) : Bool :=
  match stage_num with
  | some k => k == stages
  | none => false

/-- `if image_pattern and re.search(image_pattern, baseimg)`.  The pattern is
embedded shallowly as its matching predicate. -/
def patternHit (image_pattern : Option (String → Bool)) (img : String) : Bool :=
  match image_pattern with
  | some p => p img
  | none => false

/-- `if stage_num or stage_name or image_pattern` at end of file (Python
truthiness: `stage_num = 0` and `stage_name = ""` are falsy). -/
def anyFilter (stage_num : Option Nat) (stage_name : Option String)
    (image_pattern : Option (String → Bool)) : Bool :=
  (match stage_num with | some k => !(k == 0) | none => false)
  || (match stage_name with | some sn => !(sn == "") | none => false)
  || image_pattern.isSome

/-- The line loop of `extract_image`.  On a stage-introducing line: expand
the image reference using `{**global_args, **stage_args}` (modelled as
`stage_args ++ global_args` with first-hit lookup, so stage overrides
global), resolve a stage-alias chain through `stage_bases`, record the new
stage's alias, reset the per-stage args — *after* the expansion — and apply
the selection filters in source order. -/
def extractGo (stage_num : Option Nat) (stage_name : Option String)
    (image_pattern : Option (String → Bool)) :
    List Line → PState → Except String String
  | [], s =>
    if s.baseimg = "" then .error "Base image could not be identified."
    else if anyFilter stage_num stage_name image_pattern then
      .error "No stage matched."
    else .ok s.baseimg
  | line :: rest, s =>
    match line with
    | .argLine decls =>
      if s.in_stage then
        extractGo stage_num stage_name image_pattern rest
          { s with stage_args := bindArgs s.stage_args decls }
      else
        extractGo stage_num stage_name image_pattern rest
          { s with global_args := bindArgs s.global_args decls }
    | .other => extractGo stage_num stage_name image_pattern rest s
    | .fromLine img aliasName =>
      match expandVars (s.stage_args ++ s.global_args) img.data with
      | .error e => .error e
      | .ok expChars =>
        let expanded := String.mk expChars
        let baseimg :=
          match stageLookup s.stage_bases (lowerStr expanded) with
          | some b => b
          | none => expanded
        let bases :=
          match aliasName with
          | some a => (lowerStr a, baseimg) :: s.stage_bases
          | none => s.stage_bases
        if stageNameHit stage_name aliasName then .ok baseimg
        else if stageNumHit stage_num (s.stages + 1) then .ok baseimg
        else if patternHit image_pattern baseimg then .ok baseimg
        else
          extractGo stage_num stage_name image_pattern rest
            { baseimg := baseimg, stages := s.stages + 1,
              global_args := s.global_args, stage_args := [],
              in_stage := true, stage_bases := bases }

/-- `extract_image(containerfile, stage_num, stage_name, image_pattern)`
from `rpm_lockfile/utils.py`, over the classified lines of the file. -/
def extract_image (lines : List Line) (stage_num : Option Nat := none)
    (stage_name : Option String := none)
    (image_pattern : Option (String → Bool) := none) : Except String String :=
  extractGo stage_num stage_name image_pattern lines
    { baseimg := "", stages := 0, global_args := [], stage_args := [],
      in_stage := false, stage_bases := [] }

end Containerfile

/-! ## Per-architecture orchestration (`main`) -/

namespace Orchestrator

/-- The result record built by `process_arch` for one architecture.  The
per-architecture payload (the sorted `packages`/`source`/`module_metadata`
lists) is abstracted to a list of opaque entries: the claims under study
concern only the identity and ordering of the per-architecture records in
the emitted document, not their inner fields. -/
structure ArchResult where
  arch : String
  payload : List String
deriving DecidableEq, Repr

deriving instance DecidableEq for Except

/-- The emitted document: `{"lockfileVersion": 1, "lockfileVendor":
"redhat", "arches": [...]}`. -/
structure Lockfile where
  lockfileVersion : Nat
  lockfileVendor : String
  arches : List ArchResult
deriving DecidableEq, Repr

/-- Lexicographic code-point comparison on strings — the order used by
Python's `sorted` on `str`. -/
def lexLe : List Char → List Char → Bool
  | [], _ => true
  | _ :: _, [] => false
  | c :: cs, d :: ds =>
    if c.toNat < d.toNat then true
    else if d.toNat < c.toNat then false
    else lexLe cs ds

/-- Insertion into a sorted list. -/
def insertSorted (a : String) : List String → List String
  | [] => [a]
  | b :: t => if lexLe a.toList b.toList then a :: b :: t else b :: insertSorted a t

/-- `sorted(arches)`: the submission order of the per-architecture tasks
(`for arch in sorted(arches): futures.append(executor.submit(...))`). -/
def sortStrings (l : List String) : List String := l.foldr insertSorted []

/-- The collection loop of `main`:
`for future in as_completed(futures): data["arches"].append(future.result())`.
`completed` is the order in which the futures complete; `future.result()`
re-raises the stored exception of the first failed future reached, aborting
the loop (results appended before that point are discarded together with the
in-progress document, because the exception propagates past the file write).
The thread pool's context manager still waits for every submitted task, so
by the time the exception escapes, all architecture runs have finished. -/
def collectArches (res : String → Except String ArchResult) :
    List String → Except String (List ArchResult)
  | [] => .ok []
  | a :: rest =>
    match res a with
    | .error e => .error e
    | .ok r =>
      match collectArches res rest with
      | .error e => .error e
      | .ok rs => .ok (r :: rs)

/-- The tail of `main`: build `data` and, on success, write the document
(version and vendor fields first, `arches` in collection order). -/
def mainRun (res : String → Except String ArchResult)
    (completed : List String) : Except String Lockfile :=
  match collectArches res completed with
  | .error e => .error e
  | .ok results => .ok ⟨1, "redhat", results⟩

/-- What ends up in the output file: `some` document only when every
architecture succeeded — the exception otherwise propagates before
`open(args.outfile, "w")`. -/
def mainEmit (res : String → Except String ArchResult)
    (completed : List String) : Option Lockfile :=
  match mainRun res completed with
  | .error _ => none
  | .ok doc => some doc

end Orchestrator

/-! # PART 2 — Theorems -/

namespace Subst

theorem replaceGo_skip (p r : List Char) :
    ∀ (t : List Char) (n : Nat), replaceGo p r t n = replaceGo p r (t.drop n) 0 := by
  intro t
  induction t with
  | nil => intro n; cases n <;> rfl
  | cons c t ih =>
    intro n
    cases n with
    | zero => rfl
    | succ k => simpa [replaceGo] using ih k

theorem replaceAll_nil (p r : List Char) : replaceAll p r [] = [] := by
  by_cases h : p.isEmpty <;> simp [replaceAll, replaceGo, h]

theorem replaceAll_cons_match (p r : List Char) (c : Char) (t : List Char)
    (hp : p ≠ []) (h : p.isPrefixOf (c :: t)) :
    replaceAll p r (c :: t) = r ++ replaceAll p r ((c :: t).drop p.length) := by
  have hpe : p.isEmpty = false := by cases p <;> simp_all
  obtain ⟨m, hm⟩ : ∃ m, p.length = m + 1 := by
    cases p with
    | nil => exact absurd rfl hp
    | cons a q => exact ⟨q.length, rfl⟩
  simp only [replaceAll, hpe, Bool.false_eq_true, if_false, replaceGo, h, if_true]
  rw [replaceGo_skip, hm]
  simp

theorem replaceAll_cons_nomatch (p r : List Char) (c : Char) (t : List Char)
    (hp : p ≠ []) (h : ¬ p.isPrefixOf (c :: t)) :
    replaceAll p r (c :: t) = c :: replaceAll p r t := by
  have hpe : p.isEmpty = false := by cases p <;> simp_all
  simp [replaceAll, hpe, replaceGo, h]

theorem pat_ne_nil (k : List Char) : pat k ≠ [] := by simp [pat]

theorem not_pat_prefix_cons (k : List Char) (c : Char) (t : List Char)
    (hc : c ≠ '{') : ¬ (pat k).isPrefixOf (c :: t) := by
  intro h
  rw [List.isPrefixOf_iff_prefix] at h
  rw [pat, List.cons_prefix_cons] at h
  exact hc h.1.symm

/-- Skipping over a `{`-free chunk: no occurrence of the placeholder pattern
can start inside it. -/
theorem replaceAll_append_left (k v : List Char) (s t : List Char)
    (hs : ∀ c ∈ s, c ≠ '{') :
    replaceAll (pat k) v (s ++ t) = s ++ replaceAll (pat k) v t := by
  induction s with
  | nil => simp
  | cons c s ih =>
    have hc : c ≠ '{' := hs c (by simp)
    rw [List.cons_append,
      replaceAll_cons_nomatch _ _ _ _ (pat_ne_nil k) (not_pat_prefix_cons k c _ hc),
      ih (fun d hd => hs d (by simp [hd]))]
    simp

/-- A match right at the start of the scanned string replaces it. -/
theorem replaceAll_self_prefix (p r t : List Char) (hp : p ≠ []) :
    replaceAll p r (p ++ t) = r ++ replaceAll p r t := by
  obtain ⟨a, q, rfl⟩ : ∃ a q, p = a :: q := by
    cases p with
    | nil => exact absurd rfl hp
    | cons a q => exact ⟨a, q, rfl⟩
  have hpre : (a :: q).isPrefixOf (a :: (q ++ t)) := by
    rw [← List.cons_append]
    exact List.isPrefixOf_iff_prefix.mpr (List.prefix_append _ _)
  rw [List.cons_append, replaceAll_cons_match _ _ _ _ (by simp) hpre,
    ← List.cons_append, List.drop_left]

/-- A match at the placeholder's own occurrence replaces it. -/
theorem replaceAll_pat_self (k v t : List Char) :
    replaceAll (pat k) v (pat k ++ t) = v ++ replaceAll (pat k) v t :=
  replaceAll_self_prefix (pat k) v t (pat_ne_nil k)

/-- The pattern of one brace-free key is a prefix of the rendering of another
brace-free key's placeholder iff the keys are equal. -/
theorem pat_prefix_aux (t : List Char) :
    ∀ (k k' : List Char), braceFree k → braceFree k' →
      ((k ++ ['}']) <+: (k' ++ '}' :: t) ↔ k = k') := by
  intro k
  induction k with
  | nil =>
    intro k' _ hk'
    cases k' with
    | nil => simp
    | cons b q =>
      constructor
      · intro h
        simp only [List.nil_append, List.cons_append, List.cons_prefix_cons] at h
        exact absurd h.1.symm (hk' b (by simp)).2
      · intro h; exact absurd h (by simp)
  | cons a q ih =>
    intro k' hk hk'
    cases k' with
    | nil =>
      constructor
      · intro h
        simp only [List.nil_append, List.cons_append, List.cons_prefix_cons] at h
        exact absurd h.1 (hk a (by simp)).2
      · intro h; exact absurd h (by simp)
    | cons b q' =>
      rw [List.cons_append, List.cons_append, List.cons_prefix_cons]
      have ihq := ih q' (fun c hc => hk c (by simp [hc]))
        (fun c hc => hk' c (by simp [hc]))
      constructor
      · rintro ⟨h1, h2⟩
        rw [h1, ihq.mp h2]
      · intro h
        injection h with h1 h2
        exact ⟨h1, ihq.mpr h2⟩

theorem pat_prefix_iff (k k' t : List Char) (hk : braceFree k)
    (hk' : braceFree k') :
    ((pat k).isPrefixOf (pat k' ++ t) ↔ k = k') := by
  rw [List.isPrefixOf_iff_prefix, pat, pat, List.cons_append,
    List.append_assoc, List.singleton_append, List.cons_prefix_cons]
  simpa using pat_prefix_aux t k k' hk hk'

/-- Scanning over a different key's placeholder leaves it untouched. -/
theorem replaceAll_pat_other (k k' v t : List Char) (hk : braceFree k)
    (hk' : braceFree k') (hne : k ≠ k') :
    replaceAll (pat k) v (pat k' ++ t) = pat k' ++ replaceAll (pat k) v t := by
  have h1 : pat k' ++ t = '{' :: (k' ++ ('}' :: t)) := by
    simp [pat]
  have hnopre : ¬ (pat k).isPrefixOf (pat k' ++ t) := fun h =>
    hne ((pat_prefix_iff k k' t hk hk').mp h)
  rw [h1] at hnopre ⊢
  rw [replaceAll_cons_nomatch _ _ _ _ (pat_ne_nil k) hnopre,
    replaceAll_append_left k v k' _ (fun c hc => (hk' c hc).1),
    replaceAll_cons_nomatch _ _ _ _ (pat_ne_nil k) (not_pat_prefix_cons _ _ _ (by decide))]
  simp [pat]


theorem applySeg_wf (k v : List Char) (sg : Seg) (hv : braceFree v)
    (hs : segWF sg) : segWF (applySeg k v sg) := by
  cases sg with
  | lit s => exact hs
  | hole k' =>
    by_cases h : k' = k
    · show segWF (if k' = k then Seg.lit v else Seg.hole k')
      rw [if_pos h]; exact hv
    · show segWF (if k' = k then Seg.lit v else Seg.hole k')
      rw [if_neg h]; exact hs

/-- One `str.replace` call acts segment-wise on a well-formed template. -/
theorem replaceAll_render (k v : List Char) (segs : List Seg)
    (hk : braceFree k) (hwf : ∀ s ∈ segs, segWF s) :
    replaceAll (pat k) v (render segs) = render (segs.map (applySeg k v)) := by
  induction segs with
  | nil => simp [render, replaceAll_nil]
  | cons sg t ih =>
    have hsg : segWF sg := hwf sg (by simp)
    have ht : ∀ s ∈ t, segWF s := fun s hs => hwf s (by simp [hs])
    cases sg with
    | lit s =>
      rw [render, renderSeg,
        replaceAll_append_left k v s _ (fun c hc => (hsg c hc).1), ih ht]
      rfl
    | hole k' =>
      by_cases h : k' = k
      · subst h
        rw [render, renderSeg, replaceAll_pat_self, ih ht]
        simp [applySeg, render, renderSeg]
      · rw [render, renderSeg, replaceAll_pat_other k k' v _ hk hsg
          (fun he => h he.symm), ih ht]
        simp [applySeg, h, render, renderSeg]

/-- The whole `subst_vars` loop acts segment-wise on a well-formed template
with brace-free keys and values. -/
theorem substVars_render (vars : List (List Char × List Char))
    (segs : List Seg) (hv : ∀ kv ∈ vars, braceFree kv.1 ∧ braceFree kv.2)
    (hwf : ∀ s ∈ segs, segWF s) :
    substVars (render segs) vars = render (segs.map (applyAll vars)) := by
  induction vars generalizing segs with
  | nil =>
    simp only [substVars, List.foldl_nil]
    rw [show applyAll ([] : List (List Char × List Char)) = id from
      funext fun _ => rfl, List.map_id]
  | cons kv rest ih =>
    have hkv := hv kv (by simp)
    have hrest : ∀ kv' ∈ rest, braceFree kv'.1 ∧ braceFree kv'.2 :=
      fun kv' h => hv kv' (by simp [h])
    have h1 : substVars (render segs) (kv :: rest) =
        substVars (replaceAll (pat kv.1) kv.2 (render segs)) rest := rfl
    rw [h1, replaceAll_render kv.1 kv.2 segs hkv.1 hwf,
      ih (segs.map (applySeg kv.1 kv.2)) hrest
        (fun s hs => by
          obtain ⟨s0, hs0, rfl⟩ := List.mem_map.mp hs
          exact applySeg_wf kv.1 kv.2 s0 hkv.2 (hwf s0 hs0)),
      List.map_map]
    rfl

theorem applyAll_lit (vars : List (List Char × List Char)) (s : List Char) :
    applyAll vars (.lit s) = .lit s := by
  induction vars with
  | nil => rfl
  | cons kv rest ih => simpa [applyAll, applySeg] using ih

theorem applyAll_hole (vars : List (List Char × List Char)) (k : List Char) :
    applyAll vars (.hole k) =
      (match assocFind k vars with
        | some v => Seg.lit v
        | none => Seg.hole k) := by
  induction vars with
  | nil => rfl
  | cons kv rest ih =>
    have hstep : applyAll (kv :: rest) (.hole k) =
        applyAll rest (applySeg kv.1 kv.2 (.hole k)) := rfl
    by_cases h : kv.1 = k
    · have e : applySeg kv.1 kv.2 (Seg.hole k) = Seg.lit kv.2 := by
        show (if k = kv.1 then Seg.lit kv.2 else Seg.hole k) = Seg.lit kv.2
        exact if_pos h.symm
      rw [hstep, e, applyAll_lit, assocFind, if_pos h]
    · have e : applySeg kv.1 kv.2 (Seg.hole k) = Seg.hole k := by
        show (if k = kv.1 then Seg.lit kv.2 else Seg.hole k) = Seg.hole k
        exact if_neg (fun he => h he.symm)
      rw [hstep, e, ih, assocFind, if_neg h]

/-- Lookup in an association list with pairwise-distinct keys does not depend
on the order of the entries. -/
theorem assocFind_perm (k : List Char)
    (vars₁ vars₂ : List (List Char × List Char)) (hp : vars₁.Perm vars₂)
    (hnd : (vars₁.map Prod.fst).Nodup) :
    assocFind k vars₁ = assocFind k vars₂ := by
  induction hp with
  | nil => rfl
  | cons x _ ih =>
    simp only [List.map_cons, List.nodup_cons] at hnd
    by_cases h : x.1 = k <;> simp [assocFind, h, ih hnd.2]
  | swap x y l =>
    simp only [List.map_cons, List.nodup_cons, List.mem_cons, not_or] at hnd
    obtain ⟨⟨hyx, _⟩, _⟩ := hnd
    by_cases hx : x.1 = k
    · have hy : ¬ y.1 = k := fun he => hyx (he.trans hx.symm)
      simp [assocFind, hx, hy]
    · by_cases hy : y.1 = k <;> simp [assocFind, hx, hy]
  | trans h12 _ ih1 ih2 =>
    rw [ih1 hnd]
    exact ih2 (((h12.map Prod.fst).nodup_iff).mp hnd)

theorem applyAll_eq_spec (vars : List (List Char × List Char)) (sg : Seg) :
    applyAll vars sg = substSegSpec vars sg := by
  cases sg with
  | lit s => exact applyAll_lit vars s
  | hole k => exact applyAll_hole vars k

/-- C6 (counterexample): `subst_vars` is order-dependent even for
non-overlapping placeholder names.  With `vars = {a: "{b}", b: "X"}` on the
template `{a}`, applying `a` first yields `X` (the substituted text `{b}` is
re-scanned by the later replacement), while applying `b` first yields `{b}`.
This refutes the claim that the result does not depend on the order in which
the keys are applied whenever placeholder names are non-overlapping. -/
theorem subst_vars_order_dependent_cex :
    substVars "{a}".toList [("a".toList, "{b}".toList), ("b".toList, "X".toList)]
        = "X".toList
    ∧ substVars "{a}".toList [("b".toList, "X".toList), ("a".toList, "{b}".toList)]
        = "{b}".toList
    ∧ substVars "{a}".toList [("a".toList, "{b}".toList), ("b".toList, "X".toList)]
        ≠ substVars "{a}".toList
          [("b".toList, "X".toList), ("a".toList, "{b}".toList)] := by
  refine ⟨by decide, by decide, by decide⟩

/-- C6 (amended): on a template whose braces form non-nested `{...}` groups
(rendered from segments), with brace-free pairwise-distinct keys and
brace-free values, `subst_vars` replaces every literal occurrence of `{k}`
by `vars[k]`, leaves unmatched `{...}` placeholders untouched verbatim, and
its result does not depend on the order in which the keys are applied.
Without these extra conditions the order-independence fails
(`subst_vars_order_dependent_cex`). -/
theorem subst_vars_characterization_and_order_independent
    (segs : List Seg) (vars₁ vars₂ : List (List Char × List Char))
    (hwf : ∀ s ∈ segs, segWF s)
    (hv : ∀ kv ∈ vars₁, braceFree kv.1 ∧ braceFree kv.2)
    (hperm : vars₁.Perm vars₂)
    (hnd : (vars₁.map Prod.fst).Nodup) :
    substVars (render segs) vars₁ = render (segs.map (substSegSpec vars₁))
    ∧ substVars (render segs) vars₁ = substVars (render segs) vars₂ := by
  have hv₂ : ∀ kv ∈ vars₂, braceFree kv.1 ∧ braceFree kv.2 :=
    fun kv h => hv kv (hperm.mem_iff.mpr h)
  have h₁ := substVars_render vars₁ segs hv hwf
  have h₂ := substVars_render vars₂ segs hv₂ hwf
  constructor
  · rw [h₁]
    exact congrArg render (List.map_congr_left fun sg _ => applyAll_eq_spec vars₁ sg)
  · rw [h₁, h₂]
    refine congrArg render (List.map_congr_left fun sg _ => ?_)
    rw [applyAll_eq_spec, applyAll_eq_spec]
    cases sg with
    | lit s => rfl
    | hole k =>
      show (match assocFind k vars₁ with
          | some v => Seg.lit v
          | none => Seg.hole k) =
        (match assocFind k vars₂ with
          | some v => Seg.lit v
          | none => Seg.hole k)
      rw [assocFind_perm k vars₁ vars₂ hperm hnd]

/-- C6 (witness for the amended theorem): concrete instance — template
`pre {x} mid {y} post` with `vars = {x: A, y: B}` in the two possible orders;
both yield `pre A mid B post`. -/
theorem subst_vars_characterization_witness :
    (∀ s ∈ [Seg.lit "pre ".toList, Seg.hole "x".toList,
        Seg.lit " mid ".toList, Seg.hole "y".toList,
        Seg.lit " post".toList], segWF s)
    ∧ (∀ kv ∈ [("x".toList, "A".toList), ("y".toList, "B".toList)],
        braceFree kv.1 ∧ braceFree kv.2)
    ∧ substVars
        (render [Seg.lit "pre ".toList, Seg.hole "x".toList,
          Seg.lit " mid ".toList, Seg.hole "y".toList, Seg.lit " post".toList])
        [("x".toList, "A".toList), ("y".toList, "B".toList)]
      = substVars
        (render [Seg.lit "pre ".toList, Seg.hole "x".toList,
          Seg.lit " mid ".toList, Seg.hole "y".toList, Seg.lit " post".toList])
        [("y".toList, "B".toList), ("x".toList, "A".toList)] :=
  ⟨by decide, by decide,
    (subst_vars_characterization_and_order_independent
      [Seg.lit "pre ".toList, Seg.hole "x".toList, Seg.lit " mid ".toList,
        Seg.hole "y".toList, Seg.lit " post".toList]
      [("x".toList, "A".toList), ("y".toList, "B".toList)]
      [("y".toList, "B".toList), ("x".toList, "A".toList)]
      (by decide) (by decide) (List.Perm.swap _ _ _) (by decide)).2⟩

end Subst

namespace ArchFilter

/-- C10: in `_arch_matches`, an `only` or `not` value given as a single
string is treated as a one-element list: `_arch_matches({only: s}, A)` equals
`_arch_matches({only: [s]}, A)`, and likewise for `not` — for any value of
the respective other field. -/
theorem arch_matches_string_singleton (s arch : String)
    (other : Option StrOrList) :
    archMatches ⟨some (.str s), other⟩ arch
        = archMatches ⟨some (.list [s]), other⟩ arch
    ∧ archMatches ⟨other, some (.str s)⟩ arch
        = archMatches ⟨other, some (.list [s])⟩ arch :=
  ⟨rfl, rfl⟩

end ArchFilter

namespace ImageSpec

theorem mem_splits (s : List Char) :
    ∀ (a b : List Char), ((a, b) ∈ splits s ↔ s = a ++ b) := by
  induction s with
  | nil =>
    intro a b
    constructor
    · intro h
      simp only [splits, List.mem_singleton, Prod.mk.injEq] at h
      simp [h.1, h.2]
    · intro h
      have ha : a = [] := by cases a <;> simp_all
      have hb : b = [] := by subst ha; simpa using h.symm
      simp [splits, ha, hb]
  | cons c t ih =>
    intro a b
    simp only [splits, List.mem_cons, List.mem_map, Prod.mk.injEq]
    constructor
    · rintro (⟨ha, hb⟩ | ⟨⟨a', b'⟩, hmem, ha, hb⟩)
      · simp [← ha, ← hb]
      · rw [← ha, ← hb, List.cons_append]
        exact congrArg (c :: ·) ((ih a' b').mp hmem)
    · intro h
      cases a with
      | nil => left; exact ⟨rfl, by simpa using h.symm⟩
      | cons a0 a' =>
        right
        rw [List.cons_append] at h
        injection h with h1 h2
        exact ⟨(a', b), (ih a' b).mpr h2, by rw [h1], rfl⟩

theorem plusNonNL_iff (l : List Char) :
    plusNonNL l = true ↔ l ≠ [] ∧ ∀ x ∈ l, x ≠ '\n' := by
  simp [plusNonNL, List.isEmpty_iff]

/-- C8 (counterexample): on `"a/b.c/d"` the code returns true (the regex
`.+\..+/.+` may place the `.` after the first `/`), but the component before
the first `/` is `"a"`, which contains no dot, so the claimed
characterization says false.  Conversely on `".a/b"` the claimed
characterization says true while the code returns false (the regex requires
at least one character before the dot). -/
theorem check_image_spec_cex :
    check_image_spec "a/b.c/d".toList = true
    ∧ firstComponentDotSpec "a/b.c/d".toList = false
    ∧ check_image_spec ".a/b".toList = false
    ∧ firstComponentDotSpec ".a/b".toList = true := by
  refine ⟨by decide, by decide, by decide, by decide⟩

/-- C8 (amended): `check_image_spec` returns true iff the string decomposes
as `a ++ "." ++ b ++ "/" ++ c ++ r` where `a` and `b` are nonempty and
newline-free, and `c` is a single non-newline character (`r` arbitrary) —
i.e. there is a dot, preceded by at least one character, followed by at
least one character and then a `/` which is itself followed by at least one
character, all before any newline; the `/` need not be the first one and the
dot need not lie in the first path component. -/
theorem check_image_spec_characterization (s : List Char) :
    check_image_spec s = true ↔
      ∃ a b c r, s = a ++ '.' :: (b ++ '/' :: c :: r)
        ∧ a ≠ [] ∧ (∀ x ∈ a, x ≠ '\n')
        ∧ b ≠ [] ∧ (∀ x ∈ b, x ≠ '\n')
        ∧ c ≠ '\n' := by
  constructor
  · intro h
    rw [check_image_spec, List.any_eq_true] at h
    obtain ⟨⟨a, r1⟩, hmem, hcond⟩ := h
    rw [Bool.and_eq_true] at hcond
    obtain ⟨hpa, hrest⟩ := hcond
    have hs : s = a ++ r1 := (mem_splits s a r1).mp hmem
    cases r1 with
    | nil => simp at hrest
    | cons c1 r2 =>
      by_cases hc1 : c1 = '.'
      case neg =>
        exfalso
        revert hrest
        cases c1
        simp_all [Char.ext_iff]
      subst hc1
      simp only [List.any_eq_true] at hrest
      obtain ⟨⟨b, r3⟩, hmem2, hcond2⟩ := hrest
      rw [Bool.and_eq_true] at hcond2
      obtain ⟨hpb, hrest2⟩ := hcond2
      have hr2 : r2 = b ++ r3 := (mem_splits r2 b r3).mp hmem2
      cases r3 with
      | nil => simp at hrest2
      | cons c2 r4 =>
        by_cases hc2 : c2 = '/'
        case neg =>
          exfalso
          revert hrest2
          cases c2
          simp_all [Char.ext_iff]
        subst hc2
        simp only [List.any_eq_true] at hrest2
        obtain ⟨⟨c0, r5⟩, hmem3, hpc⟩ := hrest2
        have hr4 : r4 = c0 ++ r5 := (mem_splits r4 c0 r5).mp hmem3
        obtain ⟨hc0ne, hc0nl⟩ := (plusNonNL_iff c0).mp hpc
        obtain ⟨ch, c0', rfl⟩ : ∃ ch c0', c0 = ch :: c0' := by
          cases c0 with
          | nil => exact absurd rfl hc0ne
          | cons ch c0' => exact ⟨ch, c0', rfl⟩
        obtain ⟨hane, hanl⟩ := (plusNonNL_iff a).mp hpa
        obtain ⟨hbne, hbnl⟩ := (plusNonNL_iff b).mp hpb
        refine ⟨a, b, ch, c0' ++ r5, ?_, hane, hanl, hbne, hbnl,
          hc0nl ch (by simp)⟩
        rw [hs, hr2, hr4]
        simp
  · rintro ⟨a, b, c, r, rfl, hane, hanl, hbne, hbnl, hcnl⟩
    rw [check_image_spec, List.any_eq_true]
    refine ⟨(a, '.' :: (b ++ '/' :: c :: r)),
      (mem_splits _ _ _).mpr rfl, ?_⟩
    rw [Bool.and_eq_true]
    refine ⟨(plusNonNL_iff a).mpr ⟨hane, hanl⟩, ?_⟩
    show (splits (b ++ '/' :: c :: r)).any _ = true
    rw [List.any_eq_true]
    refine ⟨(b, '/' :: c :: r), (mem_splits _ _ _).mpr rfl, ?_⟩
    rw [Bool.and_eq_true]
    refine ⟨(plusNonNL_iff b).mpr ⟨hbne, hbnl⟩, ?_⟩
    show (splits (c :: r)).any _ = true
    rw [List.any_eq_true]
    exact ⟨([c], r), (mem_splits _ _ _).mpr rfl,
      (plusNonNL_iff [c]).mpr ⟨by simp, by simpa using hcnl⟩⟩

end ImageSpec

namespace Cache

theorem upd_self {n : Nat} {α : Type} (f : Fin n → α) (i : Fin n) (x : α) :
    upd f i x i = x := by
  simp [upd]

theorem upd_ne {n : Nat} {α : Type} (f : Fin n → α) {i j : Fin n} (x : α)
    (h : j ≠ i) : upd f i x j = f j := by
  simp [upd, h]

theorem maybeCleanup_noop (usage : Option Nat) (c : Option Dir)
    (h : usage.getD 0 < USAGE_THRESHOLD) : maybeCleanup usage c = c := by
  cases usage with
  | none => rfl
  | some u =>
    simp only [Option.getD_some] at h
    have hc : ¬ (u ≠ 0 ∧ USAGE_THRESHOLD ≤ u) := fun hc =>
      absurd h (Nat.not_lt.mpr hc.2)
    simp [maybeCleanup, if_neg hc]

/-- C7: after `setup_rpmdb` populates the cache entry and copies it into the
caller's destination, a disk usage reading of at least 80 % makes
`_maybe_cleanup` delete the cache entry; the destination, copied before the
eviction check, still holds the extracted content. -/
theorem setup_rpmdb_evicts_after_copy (content : Dir) (u : Nat)
    (hu : USAGE_THRESHOLD ≤ u) :
    (setup_rpmdb_seq ⟨none⟩ content (some u)).fs.cache = none
    ∧ (setup_rpmdb_seq ⟨none⟩ content (some u)).dest = content
    ∧ (setup_rpmdb_seq ⟨none⟩ content (some u)).downloaded = true := by
  have hz : u ≠ 0 := by
    intro h0
    rw [h0] at hu
    exact absurd hu (by decide)
  refine ⟨?_, rfl, rfl⟩
  simp [setup_rpmdb_seq, maybeCleanup, hz, hu]

/-- C7 (witness): usage 95 % as in the repository's full-disk test. -/
theorem setup_rpmdb_evicts_after_copy_witness :
    USAGE_THRESHOLD ≤ 95
    ∧ (setup_rpmdb_seq ⟨none⟩ [("rpmdb.sqlite", "x")] (some 95)).fs.cache = none
    ∧ (setup_rpmdb_seq ⟨none⟩ [("rpmdb.sqlite", "x")] (some 95)).dest
        = [("rpmdb.sqlite", "x")]
    ∧ (setup_rpmdb_seq ⟨none⟩ [("rpmdb.sqlite", "x")] (some 95)).downloaded
        = true :=
  ⟨by decide, setup_rpmdb_evicts_after_copy [("rpmdb.sqlite", "x")] 95 (by decide)⟩

theorem runCalls_hit (content d : Dir) (usage : Option Nat)
    (husage : usage.getD 0 < USAGE_THRESHOLD) :
    ∀ (k : Nat) (fs : SeqFS), fs.cache = some d →
      ∀ r ∈ runCalls content usage k fs,
        r.downloaded = false ∧ r.dest = d ∧ r.fs.cache = some d := by
  intro k
  induction k with
  | zero => intro fs _ r hr; simp [runCalls] at hr
  | succ k ih =>
    intro fs hfs r hr
    have hcall : setup_rpmdb_seq fs content usage =
        { fs := { cache := some d }, dest := d, downloaded := false } := by
      simp [setup_rpmdb_seq, hfs, maybeCleanup_noop usage (some d) husage]
    rw [runCalls, hcall] at hr
    rcases List.mem_cons.mp hr with h | h
    · simp [h]
    · exact ih { cache := some d } rfl r h

/-- C9 (counterexample): with the disk already at or above the eviction
threshold, the entry installed by the first call is evicted right after it,
so the next `setup_rpmdb` call for the same (arch, digest) misses the cache
and downloads the image again — refuting "every subsequent setup_rpmdb call
… is a cache hit that performs no image download" as stated, without a
bound on disk usage. -/
theorem empty_rpmdb_cached_cex :
    (setup_rpmdb_seq ⟨none⟩ [] (some 95)).downloaded = true
    ∧ (setup_rpmdb_seq ⟨none⟩ [] (some 95)).fs.cache = none
    ∧ (setup_rpmdb_seq (setup_rpmdb_seq ⟨none⟩ [] (some 95)).fs []
        (some 95)).downloaded = true := by
  refine ⟨by decide, by decide, by decide⟩

/-- C9 (amended): provided disk usage stays below the eviction threshold, a
base image with no file under any known rpmdb candidate path still gets an
(empty) per-digest cache entry installed under the final cache path by the
first `setup_rpmdb` call, and every subsequent call for the same
(arch, digest) is a cache hit that performs no image download. -/
theorem empty_rpmdb_cached (usage : Option Nat) (k : Nat)
    (husage : usage.getD 0 < USAGE_THRESHOLD) :
    (setup_rpmdb_seq ⟨none⟩ [] usage).fs.cache = some []
    ∧ (setup_rpmdb_seq ⟨none⟩ [] usage).downloaded = true
    ∧ ∀ r ∈ runCalls [] usage k (setup_rpmdb_seq ⟨none⟩ [] usage).fs,
        r.downloaded = false ∧ r.dest = [] ∧ r.fs.cache = some [] := by
  have hfirst : setup_rpmdb_seq ⟨none⟩ [] usage =
      { fs := { cache := some [] }, dest := [], downloaded := true } := by
    simp [setup_rpmdb_seq, maybeCleanup_noop usage (some []) husage]
  refine ⟨by rw [hfirst], by rw [hfirst], ?_⟩
  intro r hr
  exact runCalls_hit [] [] usage husage k _ (by rw [hfirst]) r hr

/-- C9 (witness): two subsequent calls at 10 % disk usage. -/
theorem empty_rpmdb_cached_witness :
    ((some 10 : Option Nat).getD 0 < USAGE_THRESHOLD)
    ∧ (setup_rpmdb_seq ⟨none⟩ [] (some 10)).fs.cache = some []
    ∧ (setup_rpmdb_seq ⟨none⟩ [] (some 10)).downloaded = true
    ∧ ∀ r ∈ runCalls [] (some 10) 2 (setup_rpmdb_seq ⟨none⟩ [] (some 10)).fs,
        r.downloaded = false ∧ r.dest = [] ∧ r.fs.cache = some [] :=
  ⟨by decide, empty_rpmdb_cached (some 10) 2 (by decide)⟩

theorem inv_init (cfg : Config) (n : Nat) (hn : 0 < n) : Inv cfg (init n) := by
  refine ⟨Or.inl rfl, ?_, ?_, ?_, ?_, ?_, ?_⟩
  · intro j hj; exact absurd hj (by simp [init])
  · intro j hj
    rcases hj with hj | hj <;> exact absurd hj (by simp [init])
  · intro j hj
    rcases hj with hj | hj <;> exact absurd hj (by simp [init])
  · intro j; simp [init]
  · exact Or.inr ⟨⟨0, hn⟩, Or.inl rfl⟩
  · intro j hj; exact absurd hj (by simp [init])

theorem inv_step {n : Nat} (cfg : Config) (hdisk : cfg.diskFull = false)
    (s : CState n) (i : Fin n) (h : Inv cfg s) : Inv cfg (step cfg s i) := by
  obtain ⟨h1, h2, h3, h4, h5, h6, h7⟩ := h
  cases hpc : s.pc i with
  | check =>
    simp only [step, hpc]
    by_cases hc : s.cache = none
    · rw [if_pos hc]
      refine ⟨h1, ?_, ?_, ?_, ?_, ?_, ?_⟩
      · intro j hj
        by_cases hji : j = i
        · subst hji; simp only [upd_self] at hj; exact absurd hj (by decide)
        · simp only [upd_ne _ _ hji] at hj; exact h2 j hj
      · intro j hj
        by_cases hji : j = i
        · subst hji; simp only [upd_self] at hj
          rcases hj with hj | hj <;> exact absurd hj (by decide)
        · simp only [upd_ne _ _ hji] at hj; exact h3 j hj
      · intro j hj
        by_cases hji : j = i
        · subst hji; simp only [upd_self] at hj
          rcases hj with hj | hj <;> exact absurd hj (by decide)
        · simp only [upd_ne _ _ hji] at hj; exact h4 j hj
      · intro j
        by_cases hji : j = i
        · subst hji; simp only [upd_self]; decide
        · simp only [upd_ne _ _ hji]; exact h5 j
      · exact Or.inr ⟨i, Or.inr (Or.inl (upd_self _ _ _))⟩
      · intro j hj
        rcases h7 j hj with ⟨ht, hp⟩
        refine ⟨ht, ?_⟩
        by_cases hji : j = i
        · subst hji
          rcases hp with hp | hp | hp <;> rw [hpc] at hp <;> exact absurd hp (by decide)
        · simp only [upd_ne _ _ hji]; exact hp
    · rw [if_neg hc]
      have hcc : s.cache = some cfg.content := by
        rcases h1 with h1 | h1
        · exact absurd h1 hc
        · exact h1
      refine ⟨h1, ?_, ?_, ?_, ?_, Or.inl hcc, ?_⟩
      · intro j hj
        by_cases hji : j = i
        · subst hji; simp only [upd_self] at hj; exact absurd hj (by decide)
        · simp only [upd_ne _ _ hji] at hj; exact h2 j hj
      · intro j _; exact hcc
      · intro j hj
        by_cases hji : j = i
        · subst hji; simp only [upd_self] at hj
          rcases hj with hj | hj <;> exact absurd hj (by decide)
        · simp only [upd_ne _ _ hji] at hj; exact h4 j hj
      · intro j
        by_cases hji : j = i
        · subst hji; simp only [upd_self]; decide
        · simp only [upd_ne _ _ hji]; exact h5 j
      · intro j hj
        rcases h7 j hj with ⟨ht, hp⟩
        refine ⟨ht, ?_⟩
        by_cases hji : j = i
        · subst hji; exact Or.inl (upd_self _ _ _)
        · simp only [upd_ne _ _ hji]; exact hp
  | populate =>
    simp only [step, hpc]
    refine ⟨h1, ?_, ?_, ?_, ?_, Or.inr ⟨i, Or.inr (Or.inr (upd_self _ _ _))⟩, ?_⟩
    · intro j hj
      by_cases hji : j = i
      · subst hji; simp only [upd_self]
      · simp only [upd_ne _ _ hji] at hj ⊢; exact h2 j hj
    · intro j hj
      by_cases hji : j = i
      · subst hji; simp only [upd_self] at hj
        rcases hj with hj | hj <;> exact absurd hj (by decide)
      · simp only [upd_ne _ _ hji] at hj; exact h3 j hj
    · intro j hj
      by_cases hji : j = i
      · subst hji; simp only [upd_self] at hj
        rcases hj with hj | hj <;> exact absurd hj (by decide)
      · simp only [upd_ne _ _ hji] at hj; exact h4 j hj
    · intro j
      by_cases hji : j = i
      · subst hji; simp only [upd_self]; decide
      · simp only [upd_ne _ _ hji]; exact h5 j
    · intro j hj
      rcases h7 j hj with ⟨ht, hp⟩
      by_cases hji : j = i
      · subst hji
        rcases hp with hp | hp | hp <;> rw [hpc] at hp <;> exact absurd hp (by decide)
      · simp only [upd_ne _ _ hji]; exact ⟨ht, hp⟩
  | rename =>
    have htmp : s.tmp i = some cfg.content := h2 i hpc
    simp only [step, hpc]
    have hbody : ∀ (hsome : s.cache = none ∨ ∃ d, s.cache = some d ∧ d.isEmpty),
        Inv cfg { s with cache := s.tmp i, tmp := upd s.tmp i none,
                         pc := upd s.pc i .copy } := by
      intro _
      refine ⟨Or.inr htmp, ?_, ?_, ?_, ?_, Or.inl htmp, ?_⟩
      · intro j hj
        by_cases hji : j = i
        · subst hji; simp only [upd_self] at hj; exact absurd hj (by decide)
        · simp only [upd_ne _ _ hji] at hj ⊢; exact h2 j hj
      · intro j _; exact htmp
      · intro j hj
        by_cases hji : j = i
        · subst hji; simp only [upd_self] at hj
          rcases hj with hj | hj <;> exact absurd hj (by decide)
        · simp only [upd_ne _ _ hji] at hj; exact h4 j hj
      · intro j
        by_cases hji : j = i
        · subst hji; simp only [upd_self]; decide
        · simp only [upd_ne _ _ hji]; exact h5 j
      · intro j hj
        rcases h7 j hj with ⟨ht, hp⟩
        by_cases hji : j = i
        · subst hji
          rcases hp with hp | hp | hp <;> rw [hpc] at hp <;> exact absurd hp (by decide)
        · simp only [upd_ne _ _ hji]; exact ⟨ht, hp⟩
    cases hc : s.cache with
    | none => exact hbody (Or.inl hc)
    | some d =>
      dsimp only
      by_cases hde : d.isEmpty
      · rw [if_pos hde]; exact hbody (Or.inr ⟨d, hc, hde⟩)
      · rw [if_neg hde]
        have hcc : s.cache = some cfg.content := by
          rcases h1 with h1 | h1
          · rw [h1] at hc; exact absurd hc (by simp)
          · exact h1
        rw [hc] at hcc
        refine ⟨Or.inr hcc, ?_, ?_, ?_, ?_, Or.inl hcc, ?_⟩
        · intro j hj
          by_cases hji : j = i
          · subst hji; simp only [upd_self] at hj; exact absurd hj (by decide)
          · simp only [upd_ne _ _ hji] at hj; exact h2 j hj
        · intro j _; exact hcc
        · intro j hj
          by_cases hji : j = i
          · subst hji; simp only [upd_self] at hj
            rcases hj with hj | hj <;> exact absurd hj (by decide)
          · simp only [upd_ne _ _ hji] at hj; exact h4 j hj
        · intro j
          by_cases hji : j = i
          · subst hji; simp only [upd_self]; decide
          · simp only [upd_ne _ _ hji]; exact h5 j
        · intro j hj
          by_cases hji : j = i
          · subst hji
            exact ⟨htmp, Or.inl (upd_self _ _ _)⟩
          · simp only [upd_ne _ _ hji] at hj
            rcases h7 j hj with ⟨ht, hp⟩
            refine ⟨ht, ?_⟩
            simp only [upd_ne _ _ hji]
            exact hp
  | copy =>
    have hcc : s.cache = some cfg.content := h3 i (Or.inl hpc)
    simp only [step, hpc, hcc]
    refine ⟨Or.inr rfl, ?_, ?_, ?_, ?_, Or.inl rfl, ?_⟩
    · intro j hj
      by_cases hji : j = i
      · subst hji; simp only [upd_self] at hj; exact absurd hj (by decide)
      · simp only [upd_ne _ _ hji] at hj; exact h2 j hj
    · intro j _; rfl
    · intro j hj
      by_cases hji : j = i
      · subst hji; simp only [upd_self]
      · simp only [upd_ne _ _ hji] at hj ⊢; exact h4 j hj
    · intro j
      by_cases hji : j = i
      · subst hji; simp only [upd_self]; decide
      · simp only [upd_ne _ _ hji]; exact h5 j
    · intro j hj
      rcases h7 j hj with ⟨ht, hp⟩
      refine ⟨ht, ?_⟩
      by_cases hji : j = i
      · subst hji; exact Or.inr (Or.inl (upd_self _ _ _))
      · simp only [upd_ne _ _ hji]; exact hp
  | cleanup =>
    have hcc : s.cache = some cfg.content := h3 i (Or.inr hpc)
    have hcond : ¬ (cfg.diskFull ∧ s.cache ≠ none) := by
      intro hcond
      rw [hdisk] at hcond
      exact Bool.false_ne_true hcond.1
    simp only [step, hpc]
    rw [if_neg hcond]
    refine ⟨h1, ?_, ?_, ?_, ?_, Or.inl hcc, ?_⟩
    · intro j hj
      by_cases hji : j = i
      · subst hji; simp only [upd_self] at hj; exact absurd hj (by decide)
      · simp only [upd_ne _ _ hji] at hj; exact h2 j hj
    · intro j hj
      by_cases hji : j = i
      · subst hji; simp only [upd_self] at hj
        rcases hj with hj | hj <;> exact absurd hj (by decide)
      · simp only [upd_ne _ _ hji] at hj; exact h3 j hj
    · intro j hj
      by_cases hji : j = i
      · subst hji; exact h4 _ (Or.inl hpc)
      · simp only [upd_ne _ _ hji] at hj; exact h4 j hj
    · intro j
      by_cases hji : j = i
      · subst hji; simp only [upd_self]; decide
      · simp only [upd_ne _ _ hji]; exact h5 j
    · intro j hj
      rcases h7 j hj with ⟨ht, hp⟩
      refine ⟨ht, ?_⟩
      by_cases hji : j = i
      · subst hji; exact Or.inr (Or.inr (upd_self _ _ _))
      · simp only [upd_ne _ _ hji]; exact hp
  | done =>
    simp only [step, hpc]
    exact ⟨h1, h2, h3, h4, h5, h6, h7⟩
  | error =>
    simp only [step, hpc]
    exact ⟨h1, h2, h3, h4, h5, h6, h7⟩

theorem inv_run {n : Nat} (cfg : Config) (hdisk : cfg.diskFull = false)
    (sched : List (Fin n)) :
    ∀ (s : CState n), Inv cfg s → Inv cfg (run cfg s sched) := by
  induction sched with
  | nil => intro s hs; exact hs
  | cons i rest ih =>
    intro s hs
    exact ih (step cfg s i) (inv_step cfg hdisk s i hs)

theorem final_cache_full {n : Nat} (cfg : Config) (sched : List (Fin n))
    (hdisk : cfg.diskFull = false) (hn : 0 < n)
    (hdone : ∀ i, (run cfg (init n) sched).pc i = .done) :
    (run cfg (init n) sched).cache = some cfg.content := by
  have hinv := inv_run cfg hdisk sched (init n) (inv_init cfg n hn)
  rcases hinv.progress with h | ⟨i, hi⟩
  · exact h
  · rcases hi with hi | hi | hi <;> rw [hdone i] at hi <;>
      exact absurd hi (by decide)

/-- C3 (amended): for `N ≥ 2` concurrent `setup_rpmdb` calls with identical
(arch, digest), distinct pids, no pre-existing cache entry, and disk usage
below the eviction threshold, once all calls have completed the final cache
directory `<cache>/rpmdbs/<arch>/<digest>` exists with the full extracted
content, every caller's destination directory holds that content, and along
every interleaving the final cache path is only ever observed absent or
fully populated (never partial) — regardless of which caller won the rename
race.  Without the disk-usage bound the entry may be evicted right after
population (`setup_rpmdb_race_cex`). -/
theorem setup_rpmdb_race_property (cfg : Config) (n : Nat)
    (sched : List (Fin n)) (hdisk : cfg.diskFull = false) (hn : 2 ≤ n)
    (hdone : ∀ i, (run cfg (init n) sched).pc i = .done) :
    (run cfg (init n) sched).cache = some cfg.content
    ∧ (∀ i, (run cfg (init n) sched).dest i = some cfg.content)
    ∧ (∀ l : List (Fin n), (run cfg (init n) l).cache = none
        ∨ (run cfg (init n) l).cache = some cfg.content) := by
  have hn0 : 0 < n := lt_of_lt_of_le (by decide) hn
  have hinv := inv_run cfg hdisk sched (init n) (inv_init cfg n hn0)
  exact ⟨final_cache_full cfg sched hdisk hn0 hdone,
    fun i => hinv.destDone i (Or.inr (hdone i)),
    fun l => (inv_run cfg hdisk l (init n) (inv_init cfg n hn0)).cacheOK⟩

/-- C3 (witness): two callers racing on the same digest, disk not full. -/
theorem setup_rpmdb_race_property_witness :
    ((⟨[("rpmdb.sqlite", "x")], false⟩ : Config).diskFull = false)
    ∧ (∀ i : Fin 2, (run ⟨[("rpmdb.sqlite", "x")], false⟩ (init 2)
        [0, 1, 0, 0, 1, 1, 0, 0, 1, 1]).pc i = .done)
    ∧ ((run ⟨[("rpmdb.sqlite", "x")], false⟩ (init 2)
          [0, 1, 0, 0, 1, 1, 0, 0, 1, 1]).cache = some [("rpmdb.sqlite", "x")]
      ∧ (∀ i, (run ⟨[("rpmdb.sqlite", "x")], false⟩ (init 2)
          [0, 1, 0, 0, 1, 1, 0, 0, 1, 1]).dest i = some [("rpmdb.sqlite", "x")])
      ∧ (∀ l : List (Fin 2),
          (run ⟨[("rpmdb.sqlite", "x")], false⟩ (init 2) l).cache = none
          ∨ (run ⟨[("rpmdb.sqlite", "x")], false⟩ (init 2) l).cache
              = some [("rpmdb.sqlite", "x")])) :=
  ⟨rfl, by decide,
    setup_rpmdb_race_property ⟨[("rpmdb.sqlite", "x")], false⟩ 2
      [0, 1, 0, 0, 1, 1, 0, 0, 1, 1] rfl (by decide) (by decide)⟩

/-- C3 (counterexample): with disk usage at or above the eviction threshold,
two sequential `setup_rpmdb` calls for the same (arch, digest) both complete,
but afterwards the final cache directory does not exist at all (each call's
`_maybe_cleanup` evicted it), refuting "exactly one final cache directory
`<cache>/rpmdbs/<arch>/<digest>` exists afterward" as stated; the second
caller also had to download the image again. -/
theorem setup_rpmdb_race_cex :
    (∀ i : Fin 2, (run ⟨[("rpmdb.sqlite", "x")], true⟩ (init 2)
        [0, 0, 0, 0, 0, 1, 1, 1, 1, 1]).pc i = .done)
    ∧ (run ⟨[("rpmdb.sqlite", "x")], true⟩ (init 2)
        [0, 0, 0, 0, 0, 1, 1, 1, 1, 1]).cache = none
    ∧ (run ⟨[("rpmdb.sqlite", "x")], true⟩ (init 2)
        [0, 0, 0, 0, 0, 1, 1, 1, 1, 1]).downloaded 1 = true := by
  refine ⟨by decide, by decide, by decide⟩

/-- C4 (amended): when a caller's rename of its temporary cache directory
fails because the destination now exists and is non-empty, no error is
raised (along any interleaving no caller ever errors, disk not full), the
temporary directory is simply abandoned in place — still fully populated,
never merged into the cache — and once all calls complete the loser's
destination directory holds the cache content, exactly as on the cache-hit
path. -/
theorem rename_race_loss_treated_as_hit (cfg : Config) (n : Nat)
    (sched : List (Fin n)) (i : Fin n)
    (hdisk : cfg.diskFull = false) (hn : 0 < n)
    (hdone : ∀ j, (run cfg (init n) sched).pc j = .done)
    (hfail : (run cfg (init n) sched).failedRename i = true) :
    (run cfg (init n) sched).dest i = some cfg.content
    ∧ (run cfg (init n) sched).cache = some cfg.content
    ∧ (run cfg (init n) sched).tmp i = some cfg.content
    ∧ (∀ (l : List (Fin n)) (j : Fin n),
        (run cfg (init n) l).pc j ≠ .error) := by
  have hinv := inv_run cfg hdisk sched (init n) (inv_init cfg n hn)
  exact ⟨hinv.destDone i (Or.inr (hdone i)),
    final_cache_full cfg sched hdisk hn hdone,
    (hinv.failedOK i hfail).1,
    fun l j => (inv_run cfg hdisk l (init n) (inv_init cfg n hn)).noError j⟩

/-- C4 (witness): caller 1 loses the rename race to caller 0. -/
theorem rename_race_loss_treated_as_hit_witness :
    ((⟨[("rpmdb.sqlite", "x")], false⟩ : Config).diskFull = false)
    ∧ (∀ j : Fin 2, (run ⟨[("rpmdb.sqlite", "x")], false⟩ (init 2)
        [0, 1, 0, 0, 1, 1, 0, 0, 1, 1]).pc j = .done)
    ∧ (run ⟨[("rpmdb.sqlite", "x")], false⟩ (init 2)
        [0, 1, 0, 0, 1, 1, 0, 0, 1, 1]).failedRename 1 = true
    ∧ ((run ⟨[("rpmdb.sqlite", "x")], false⟩ (init 2)
          [0, 1, 0, 0, 1, 1, 0, 0, 1, 1]).dest 1 = some [("rpmdb.sqlite", "x")]
      ∧ (run ⟨[("rpmdb.sqlite", "x")], false⟩ (init 2)
          [0, 1, 0, 0, 1, 1, 0, 0, 1, 1]).cache = some [("rpmdb.sqlite", "x")]
      ∧ (run ⟨[("rpmdb.sqlite", "x")], false⟩ (init 2)
          [0, 1, 0, 0, 1, 1, 0, 0, 1, 1]).tmp 1 = some [("rpmdb.sqlite", "x")]
      ∧ (∀ (l : List (Fin 2)) (j : Fin 2),
          (run ⟨[("rpmdb.sqlite", "x")], false⟩ (init 2) l).pc j ≠ .error)) :=
  ⟨rfl, by decide, by decide,
    rename_race_loss_treated_as_hit ⟨[("rpmdb.sqlite", "x")], false⟩ 2
      [0, 1, 0, 0, 1, 1, 0, 0, 1, 1] 1 rfl (by decide) (by decide) (by decide)⟩

/-- C4 (counterexample): in the concrete losing run the `except OSError:
pass` branch does not delete the loser's temporary directory — after both
calls complete, the temporary path `<cache>.<pid>` of caller 1 still exists,
fully populated, refuting "the temporary directory is discarded" (in the
sense of being removed). -/
theorem rename_race_loss_tmp_left_cex :
    (run ⟨[("rpmdb.sqlite", "x")], false⟩ (init 2)
        [0, 1, 0, 0, 1, 1, 0, 0, 1, 1]).failedRename 1 = true
    ∧ (∀ j : Fin 2, (run ⟨[("rpmdb.sqlite", "x")], false⟩ (init 2)
        [0, 1, 0, 0, 1, 1, 0, 0, 1, 1]).pc j = .done)
    ∧ (run ⟨[("rpmdb.sqlite", "x")], false⟩ (init 2)
        [0, 1, 0, 0, 1, 1, 0, 0, 1, 1]).tmp 1 = some [("rpmdb.sqlite", "x")]
    ∧ (run ⟨[("rpmdb.sqlite", "x")], false⟩ (init 2)
        [0, 1, 0, 0, 1, 1, 0, 0, 1, 1]).tmp 1 ≠ none := by
  refine ⟨by decide, by decide, by decide, by decide⟩

end Cache

namespace Containerfile

theorem expandBracedGo_skip (args : ArgMap) :
    ∀ (t : List Char) (n : Nat),
      expandBracedGo args t n = expandBracedGo args (t.drop n) 0 := by
  intro t
  induction t with
  | nil => intro n; cases n <;> rfl
  | cons c t ih =>
    intro n
    cases n with
    | zero => rfl
    | succ k => simpa [expandBracedGo] using ih k

theorem expandUnbracedGo_skip (args : ArgMap) :
    ∀ (t : List Char) (n : Nat),
      expandUnbracedGo args t n = expandUnbracedGo args (t.drop n) 0 := by
  intro t
  induction t with
  | nil => intro n; cases n <;> rfl
  | cons c t ih =>
    intro n
    cases n with
    | zero => rfl
    | succ k => simpa [expandUnbracedGo] using ih k

theorem expandBracedGo_noDollar (args : ArgMap) (t : List Char)
    (h : ∀ c ∈ t, c ≠ '$') : expandBracedGo args t 0 = .ok t := by
  induction t with
  | nil => rfl
  | cons c t ih =>
    have hc : c ≠ '$' := h c (by simp)
    rw [expandBracedGo, if_neg (fun hcond => hc hcond.1),
      ih (fun d hd => h d (by simp [hd]))]
    rfl

theorem expandUnbracedGo_noDollar (args : ArgMap) (t : List Char)
    (h : ∀ c ∈ t, c ≠ '$') : expandUnbracedGo args t 0 = .ok t := by
  induction t with
  | nil => rfl
  | cons c t ih =>
    have hc : c ≠ '$' := h c (by simp)
    rw [expandUnbracedGo, if_neg (fun hcond => hc hcond.1),
      ih (fun d hd => h d (by simp [hd]))]
    rfl

theorem expandVars_noDollar (args : ArgMap) (t : List Char)
    (h : ∀ c ∈ t, c ≠ '$') : expandVars args t = .ok t := by
  rw [expandVars, expandBracedGo_noDollar args t h]
  exact expandUnbracedGo_noDollar args t h

theorem takeWhile_of_all (p : Char → Bool) (l : List Char)
    (h : ∀ c ∈ l, p c = true) : l.takeWhile p = l := by
  induction l with
  | nil => rfl
  | cons c t ih =>
    rw [List.takeWhile_cons, if_pos (h c (by simp)),
      ih (fun d hd => h d (by simp [hd]))]

theorem isWordChar_ne_special (c : Char) (h : isWordChar c = true) :
    c ≠ '$' ∧ c ≠ '{' := by
  constructor <;> · rintro rfl; simp [isWordChar, Char.isAlphanum,
    Char.isAlpha, Char.isUpper, Char.isLower, Char.isDigit] at h

/-- Expansion of a text of the exact shape `$NAME` where `NAME` is a
nonempty word and resolves in the argument map: the `${...}` pass leaves it
alone, the `$...` pass substitutes the value. -/
theorem expandVars_single_var (args : ArgMap) (X v : String)
    (hne : X.data ≠ []) (hw : ∀ c ∈ X.data, isWordChar c = true)
    (hlook : argLookup args X.data = some (some v)) :
    expandVars args ('$' :: X.data) = .ok v.data := by
  have hnd : ∀ c ∈ X.data, c ≠ '$' :=
    fun c hc => (isWordChar_ne_special c (hw c hc)).1
  have htake : X.data.takeWhile isWordChar = X.data := takeWhile_of_all _ _ hw
  have hbraced : expandBracedGo args ('$' :: X.data) 0 = .ok ('$' :: X.data) := by
    have hcond : ¬ ('$' = '$' ∧ X.data.head? = some '{'
        ∧ X.data.tail.takeWhile isWordChar ≠ []
        ∧ (X.data.tail.drop (X.data.tail.takeWhile isWordChar).length).head?
            = some '}') := by
      rintro ⟨-, hh, -, -⟩
      cases hx : X.data with
      | nil => exact hne hx
      | cons x xs =>
        rw [hx] at hh
        simp only [List.head?_cons, Option.some.injEq] at hh
        exact (isWordChar_ne_special x (hw x (by rw [hx]; simp))).2 hh
    rw [expandBracedGo, if_neg hcond, expandBracedGo_noDollar args X.data hnd]
    rfl
  rw [expandVars, hbraced]
  show expandUnbracedGo args ('$' :: X.data) 0 = .ok v.data
  rw [expandUnbracedGo, if_pos ⟨rfl, by rw [htake]; exact hne⟩, htake, hlook,
    expandUnbracedGo_skip, List.drop_length]
  show Except.map _ (Except.ok []) = _
  simp [Except.map]

/-- C5 (counterexample): in
`FROM a AS s1 / ARG X=b / FROM $X`
the ARG declared *inside* stage 1 does determine the expansion of stage 2's
FROM line (the per-stage map is reset only after each FROM line has been
expanded), yielding `b`; deleting that in-stage ARG turns the same scan into
the `UndefinedBuildArgument` failure.  This refutes "an ARG declared inside
one stage never affects the expansion of a later stage's FROM line". -/
theorem extract_image_stage_arg_leak_cex :
    extract_image [.fromLine "a" (some "s1"), .argLine [("X", some "b")],
        .fromLine "$X" none] = .ok "b"
    ∧ extract_image [.fromLine "a" (some "s1"), .fromLine "$X" none]
        = .error "ARG 'X' is used but has no default value"
    ∧ extract_image [.fromLine "a" (some "s1"), .argLine [("X", some "b")],
          .fromLine "$X" none]
        ≠ extract_image [.fromLine "a" (some "s1"), .fromLine "$X" none] := by
  refine ⟨by decide, by decide, by decide⟩

/-- C5 (amended): when `extract_image` expands variables in a
stage-introducing FROM line's image reference, the expansion uses the union
of the global build-arg map and the per-stage build-arg map *as accumulated
since the previous stage-introducing line* (stage overriding global on name
collision): the per-stage map is reset only after each FROM line has been
expanded, so ARGs declared inside the previous stage are still in scope.
Concretely, for a file
`ARG <gdecls> / FROM img0 / ARG <sdecls> / FROM $X`,
the reference `$X` resolves to whatever the union of `sdecls` (later
bindings overriding earlier) over `gdecls` assigns to `X`. -/
theorem extract_image_uses_accumulated_stage_args
    (gdecls sdecls : List (String × Option String)) (X img0 v : String)
    (hne : X.data ≠ []) (hw : ∀ c ∈ X.data, isWordChar c = true)
    (himg0 : ∀ c ∈ img0.data, c ≠ '$') (hv : v ≠ "")
    (hlook : argLookup (bindArgs [] sdecls ++ bindArgs [] gdecls) X.data
      = some (some v)) :
    extract_image [.argLine gdecls, .fromLine img0 none, .argLine sdecls,
      .fromLine ("$" ++ X) none] = .ok v := by
  have hdata : ("$" ++ X).data = '$' :: X.data := by simp
  have h1 : expandVars (bindArgs [] gdecls) img0.data = .ok img0.data :=
    expandVars_noDollar _ _ himg0
  have h2 : expandVars (bindArgs [] sdecls ++ bindArgs [] gdecls)
      ('$' :: X.data) = .ok v.data :=
    expandVars_single_var _ X v hne hw hlook
  have hmk : String.mk v.data = v := rfl
  have hmk0 : String.mk img0.data = img0 := rfl
  simp only [extract_image, extractGo, Bool.false_eq_true, if_false, if_true,
    hdata, List.nil_append, h1, h2, hmk, hmk0, stageNameHit, stageNumHit,
    patternHit, stageLookup, anyFilter, List.find?_nil, Option.map_none,
    Option.map_none', Option.isSome_none, Bool.or_self, Bool.or_false,
    Nat.beq_eq_true_eq]
  rw [if_neg hv]

/-- C5 (witness for the amended theorem): `gdecls = []`,
`sdecls = [X := "b"]`, expanding `FROM $X` after `FROM a` yields `b`. -/
theorem extract_image_uses_accumulated_stage_args_witness :
    (("X" : String).data ≠ [] ∧ (∀ c ∈ ("X" : String).data, isWordChar c = true)
      ∧ (∀ c ∈ ("a" : String).data, c ≠ '$') ∧ ("b" : String) ≠ ""
      ∧ argLookup (bindArgs [] [("X", some "b")] ++ bindArgs [] [])
          ("X" : String).data = some (some "b"))
    ∧ extract_image [.argLine [], .fromLine "a" none,
        .argLine [("X", some "b")], .fromLine ("$" ++ "X") none] = .ok "b" :=
  ⟨⟨by decide, by decide, by decide, by decide, by decide⟩,
    extract_image_uses_accumulated_stage_args [] [("X", some "b")] "X" "a" "b"
      (by decide) (by decide) (by decide) (by decide) (by decide)⟩

end Containerfile

namespace Orchestrator

theorem insertSorted_perm (a : String) (l : List String) :
    (insertSorted a l).Perm (a :: l) := by
  induction l with
  | nil => exact List.Perm.refl _
  | cons b t ih =>
    rw [insertSorted]
    by_cases h : lexLe a.toList b.toList
    · rw [if_pos h]
    · rw [if_neg h]
      exact (List.Perm.cons b ih).trans (List.Perm.swap a b t)

theorem sortStrings_perm (l : List String) : (sortStrings l).Perm l := by
  induction l with
  | nil => exact List.Perm.refl _
  | cons a t ih =>
    exact (insertSorted_perm a (sortStrings t)).trans (List.Perm.cons a ih)

theorem collectArches_ok (res : String → Except String ArchResult)
    (f : String → ArchResult) (l : List String)
    (h : ∀ a ∈ l, res a = .ok (f a)) :
    collectArches res l = .ok (l.map f) := by
  induction l with
  | nil => rfl
  | cons a rest ih =>
    rw [collectArches, h a (by simp), ih (fun b hb => h b (by simp [hb]))]
    rfl

theorem collectArches_error (res : String → Except String ArchResult)
    (l : List String) (h : ∃ a ∈ l, ∃ e, res a = .error e) :
    ∃ e, collectArches res l = .error e ∧ ∃ a ∈ l, res a = .error e := by
  induction l with
  | nil => simp at h
  | cons a rest ih =>
    cases hres : res a with
    | error e => exact ⟨e, by rw [collectArches, hres], a, by simp, hres⟩
    | ok r =>
      obtain ⟨b, hb, e, he⟩ := h
      rcases List.mem_cons.mp hb with hb | hb
      · subst hb; rw [hres] at he; exact absurd he (by simp)
      · obtain ⟨e', he', c, hc, hce⟩ := ih ⟨b, hb, e, he⟩
        refine ⟨e', ?_, c, by simp [hc], hce⟩
        rw [collectArches, hres, he']

/-- C1 (counterexample): the collection loop appends results in completion
order (`as_completed`), not submission order.  With two architectures
submitted in sorted order but completing in the order `s390x`, `amd64`, the
emitted `arches` array is `[s390x, amd64]` — not ascending — and differs
from the document obtained when completion order matches submission order,
refuting both the claimed ordering and the claimed independence from
completion order. -/
theorem lockfile_arches_order_cex :
    (["s390x", "amd64"].Perm (sortStrings ["amd64", "s390x"]))
    ∧ mainEmit (fun a => .ok ⟨a, []⟩) ["s390x", "amd64"]
        = some ⟨1, "redhat", [⟨"s390x", []⟩, ⟨"amd64", []⟩]⟩
    ∧ mainEmit (fun a => .ok ⟨a, []⟩) ["s390x", "amd64"]
        ≠ mainEmit (fun a => .ok ⟨a, []⟩) ["amd64", "s390x"] := by
  refine ⟨by decide, by decide, by decide⟩

/-- C1 (amended): when every architecture run succeeds, a document is
emitted with `lockfileVersion 1`, `lockfileVendor "redhat"`, and an `arches`
array listing exactly one result per requested architecture — but in
completion order of the concurrent runs, so the document is deterministic
only up to the ordering of the `arches` array (its multiset of entries does
not depend on completion order); the array is not sorted by architecture
name unless completion order happens to match the sorted submission
order. -/
theorem lockfile_arches_up_to_order (arches : List String)
    (f : String → ArchResult) (res : String → Except String ArchResult)
    (completed : List String)
    (hperm : completed.Perm (sortStrings arches))
    (hres : ∀ a ∈ arches, res a = .ok (f a)) :
    mainEmit res completed = some ⟨1, "redhat", completed.map f⟩
    ∧ (completed.map f).Perm (arches.map f) := by
  have hperm' : completed.Perm arches := hperm.trans (sortStrings_perm arches)
  have hok : collectArches res completed = .ok (completed.map f) :=
    collectArches_ok res f completed
      (fun a ha => hres a (hperm'.mem_iff.mp ha))
  constructor
  · rw [mainEmit, mainRun, hok]
  · exact hperm'.map f

/-- C1 (witness): completion order `["b", "a"]` against requested
architectures `["b", "a"]` (submitted sorted as `["a", "b"]`). -/
theorem lockfile_arches_up_to_order_witness :
    (["b", "a"].Perm (sortStrings ["b", "a"]))
    ∧ (∀ a ∈ ["b", "a"],
        (fun x => (.ok ⟨x, []⟩ : Except String ArchResult)) a = .ok ⟨a, []⟩)
    ∧ (mainEmit (fun x => .ok ⟨x, []⟩) ["b", "a"]
        = some ⟨1, "redhat", [⟨"b", []⟩, ⟨"a", []⟩]⟩
      ∧ (["b", "a"].map (fun x => (⟨x, []⟩ : ArchResult))).Perm
          (["b", "a"].map (fun x => (⟨x, []⟩ : ArchResult)))) :=
  ⟨by decide, by decide,
    lockfile_arches_up_to_order ["b", "a"] (fun x => ⟨x, []⟩)
      (fun x => .ok ⟨x, []⟩) ["b", "a"] (by decide) (by decide)⟩

/-- C2 (counterexample): with two failing architectures, only the error of
the first-completed failure is surfaced (`future.result()` re-raises it and
the loop stops); the other collected error is lost, refuting "surfacing all
collected errors". -/
theorem orchestrator_single_error_cex :
    mainRun (fun a => if a = "a" then .error "boom-a" else .error "boom-b")
        ["a", "b"] = .error "boom-a"
    ∧ (fun a => if a = "a" then (.error "boom-a" : Except String ArchResult)
        else .error "boom-b") "b" = .error "boom-b"
    ∧ ("boom-a" : String) ≠ "boom-b"
    ∧ mainEmit (fun a => if a = "a" then .error "boom-a" else .error "boom-b")
        ["a", "b"] = none := by
  refine ⟨by decide, by decide, by decide, by decide⟩

/-- C2 (amended): if any architecture's run fails, the orchestrator does not
cancel the others — every submitted task still runs to completion (the
executor's context manager waits for all of them, which is why `completed`
ranges over all requested architectures) — and the overall run fails only
after all have completed, surfacing the error of the first failed
architecture in completion order (not all collected errors), and no lockfile
output file is written. -/
theorem orchestrator_fail_together (arches : List String)
    (res : String → Except String ArchResult) (completed : List String)
    (hperm : completed.Perm (sortStrings arches))
    (hfail : ∃ a ∈ arches, ∃ e, res a = .error e) :
    mainEmit res completed = none
    ∧ ∃ e, mainRun res completed = .error e
        ∧ ∃ a ∈ arches, res a = .error e := by
  have hperm' : completed.Perm arches := hperm.trans (sortStrings_perm arches)
  obtain ⟨b, hb, e, he⟩ := hfail
  obtain ⟨e', he', c, hc, hce⟩ :=
    collectArches_error res completed ⟨b, hperm'.mem_iff.mpr hb, e, he⟩
  refine ⟨?_, e', ?_, c, hperm'.mem_iff.mp hc, hce⟩
  · rw [mainEmit, mainRun, he']
  · rw [mainRun, he']

/-- C2 (witness): architecture `"a"` fails, `"b"` succeeds. -/
theorem orchestrator_fail_together_witness :
    (["b", "a"].Perm (sortStrings ["a", "b"]))
    ∧ (∃ a ∈ ["a", "b"], ∃ e,
        (fun x => if x = "a" then (.error "boom" : Except String ArchResult)
          else .ok ⟨x, []⟩) a = .error e)
    ∧ (mainEmit (fun x => if x = "a" then .error "boom" else .ok ⟨x, []⟩)
          ["b", "a"] = none
      ∧ ∃ e, mainRun (fun x => if x = "a" then .error "boom"
            else .ok ⟨x, []⟩) ["b", "a"] = .error e
          ∧ ∃ a ∈ ["a", "b"],
            (fun x => if x = "a" then (.error "boom" : Except String ArchResult)
              else .ok ⟨x, []⟩) a = .error e) :=
  ⟨by decide, ⟨"a", by decide, "boom", by decide⟩,
    orchestrator_fail_together ["a", "b"]
      (fun x => if x = "a" then .error "boom" else .ok ⟨x, []⟩) ["b", "a"]
      (by decide) ⟨"a", by decide, "boom", by decide⟩⟩

end Orchestrator

end RpmLockfile
